import Mathlib

/-!
Verification of the PriorityScheduler repository's core: the preemptive
priority CPU-scheduling engine `runPrioritySimulation` and the derived
CPU-utilization metric computed by `handleSubmit`.

The embedding follows the TypeScript source closely.  JavaScript numbers on
the scheduling path are always nonnegative integers (arrival, burst,
priority, remaining, tick counters), so they are modelled as `Nat`;
`turnaroundTime` and `waitingTime` are computed by subtraction and are
modelled as `Int` so that no truncation is hidden.  The CPU-utilization
formula divides, so it is modelled over `ℚ`.

Process records in JavaScript are heap objects manipulated by reference:
the engine first deep-copies its input (`JSON.parse(JSON.stringify(...))`,
line 36) and then mutates only the copies.  To state the no-mutation
(frame) claims faithfully, the simulation state carries an addressed store
`heap` of process records together with an offset `base`: the caller's
records occupy positions `[0, base)` and the engine's private clones occupy
positions from `base` on.  Every write performed by the loop goes through
`List.set` at an address `base + i`, mirroring the JavaScript mutation of a
cloned object.
-/

namespace PriorityScheduler

/-- The `Process` record, source lines 6-17.  Field names follow the
source.  `arrival`, `burst`, `priority`, `remaining`, `completionTime` and
the entries of `startTimes` are nonnegative integers in every execution and
are modelled as `Nat`; `turnaroundTime` and `waitingTime` are results of
subtractions and are modelled as `Int`. -/
structure Process where
  id : Nat
  pid : String
  arrival : Nat
  burst : Nat
  priority : Nat
  remaining : Nat
  completionTime : Nat
  turnaroundTime : Int
  waitingTime : Int
  startTimes : List Nat
deriving DecidableEq

/-- The `GanttSegment` record, source lines 19-24.  The source field `end`
is a Lean keyword and is rendered `endTime`. -/
structure GanttSegment where
  pid : String
  start : Nat
  endTime : Nat
  id : Option Nat
deriving DecidableEq

/-- The mutable state of the simulation loop (source lines 36-41) together
with the addressed store of process records.  `heap` holds the caller's
records in positions `[0, base)` and the engine's working clones from
position `base` on; the remaining fields are the local variables
`currentTime`, `ganttChart`, `idleTime`, `lastProcessId` and `isIdle` of
`runPrioritySimulation`. -/
structure SimState where
  heap : List Process
  base : Nat
  currentTime : Nat
  gantt : List GanttSegment
  idleTime : Nat
  lastProcessId : Option String
  isIdle : Bool
deriving DecidableEq

/-- The engine's working array `processes` (the cloned records): the part
of the store from `base` on. -/
def view (s : SimState) : List Process :=
  s.heap.drop s.base

/-- The ready queue construction, source line 44:
`processes.filter(p => p.arrival <= currentTime && p.remaining > 0)`.
Each element is paired with its index in the working array so that the
in-place mutation of the selected record can be modelled by `List.set`. -/
def readyPairs (ps : List Process) (t : Nat) : List (Nat × Process) :=
  ps.enum.filter (fun ip => ip.2.arrival ≤ t && 0 < ip.2.remaining)

/-- The comparator of source lines 59-64, as a strict order: the comparator
returns a negative number exactly when `a.priority < b.priority`, or the
priorities tie and `a.arrival < b.arrival`. -/
def cmpLt (a b : Process) : Bool :=
  a.priority < b.priority || (a.priority == b.priority && a.arrival < b.arrival)

/-- First minimum of `best :: xs` for `cmpLt`: the current best is replaced
only by a strictly smaller element, so ties keep the earlier element. -/
def selMin (best : Nat × Process) : List (Nat × Process) → Nat × Process
  | [] => best
  | x :: xs => selMin (if cmpLt x.2 best.2 then x else best) xs

/-- Selection of the running process, source lines 59-66: the ready queue
is sorted with the comparator (JavaScript `Array.prototype.sort` is stable)
and element `0` is taken.  The head of a stable sort is the first element
of the list that is minimal for the comparator's ordering, which is what
`selMin` computes. -/
def select (ps : List Process) (t : Nat) : Option (Nat × Process) :=
  match readyPairs ps t with
  | [] => none
  | x :: xs => some (selMin x xs)

/-- `ganttChart[ganttChart.length - 1].end = e`, source lines 51 and 76:
overwrite the `end` field of the last segment. -/
def extendLast (g : List GanttSegment) (e : Nat) : List GanttSegment :=
  match g with
  | [] => []
  | [s] => [{ s with endTime := e }]
  | s :: s' :: rest => s :: extendLast (s' :: rest) e

/-- The idle branch of the loop, source lines 46-57: push or extend an
`IDLE` segment, count the idle tick, advance time, clear `lastProcessId`. -/
def idleTick (s : SimState) : SimState :=
  { s with
    gantt :=
      if s.isIdle = false then
        s.gantt ++ [{ pid := "IDLE", start := s.currentTime,
                      endTime := s.currentTime + 1, id := none }]
      else extendLast s.gantt (s.currentTime + 1),
    isIdle := true,
    idleTime := s.idleTime + 1,
    currentTime := s.currentTime + 1,
    lastProcessId := none }

/-- The tail of the busy branch, source lines 79-87: decrement `remaining`
of the selected record (it is positive, being in the ready queue, so `Nat`
subtraction is exact), advance time, remember the pid, and on completion
set `completionTime = currentTime` (already incremented),
`turnaroundTime = completionTime - arrival` and
`waitingTime = turnaroundTime - burst`.  `p₁` is the selected record after
the possible `startTimes` push; the write goes to store address
`base + i` where `i` is the record's index in the working array. -/
def tickComplete (t : Nat) (p₂ : Process) : Process :=
  if p₂.remaining = 0 then
    { p₂ with
      completionTime := t + 1,
      turnaroundTime := (t + 1 : Int) - p₂.arrival,
      waitingTime := ((t + 1 : Int) - p₂.arrival) - p₂.burst }
  else p₂

def tickResult (t : Nat) (p₁ : Process) : Process :=
  tickComplete t { p₁ with remaining := p₁.remaining - 1 }

/-- State update of the busy branch: write the updated record back to the
store at address `base + i`, install the new timeline and `isIdle` flag,
advance time and remember the running pid. -/
def runTick (s : SimState) (i : Nat) (p₁ : Process)
    (g : List GanttSegment) (idl : Bool) : SimState :=
  { s with
    heap := s.heap.set (s.base + i) (tickResult s.currentTime p₁),
    gantt := g,
    isIdle := idl,
    currentTime := s.currentTime + 1,
    lastProcessId := some p₁.pid }

/-- One iteration of the while-loop body, source lines 44-87. -/
def step (s : SimState) : SimState :=
  match select (view s) s.currentTime with
  | none => idleTick s
  | some (i, p) =>
      if s.lastProcessId = some p.pid then
        runTick s i p (extendLast s.gantt (s.currentTime + 1)) s.isIdle
      else
        runTick s i
          (if p.startTimes = [] then { p with startTimes := [s.currentTime] } else p)
          (s.gantt ++ [{ pid := p.pid, start := s.currentTime,
                         endTime := s.currentTime + 1, id := some p.id }])
          false

/-- The loop guard, source line 43: `processes.some(p => p.remaining > 0)`. -/
def simGuard (s : SimState) : Bool :=
  (view s).any (fun p => 0 < p.remaining)

/-- The while-loop, with an explicit iteration budget.  `simFuel` below is
large enough for the loop to reach its exit condition on every input. -/
def simLoop : Nat → SimState → SimState
  | 0, s => s
  | fuel + 1, s => if simGuard s then simLoop fuel (step s) else s

/-- The deep copy of one record performed by
`JSON.parse(JSON.stringify(initialProcesses))` (source line 36): a fresh
record with every field copied. -/
def cloneProcess (p : Process) : Process :=
  { id := p.id, pid := p.pid, arrival := p.arrival, burst := p.burst,
    priority := p.priority, remaining := p.remaining,
    completionTime := p.completionTime, turnaroundTime := p.turnaroundTime,
    waitingTime := p.waitingTime, startTimes := p.startTimes }

/-- Initial state: the caller's records occupy `[0, base)` of the store and
the engine's private clones (line 36) follow them; the loop's local
variables start as on source lines 37-41. -/
def initState (ps : List Process) : SimState :=
  { heap := ps ++ ps.map cloneProcess, base := ps.length,
    currentTime := 0, gantt := [], idleTime := 0,
    lastProcessId := none, isIdle := false }

/-- Total remaining work of a process list. -/
def sumRemaining (ps : List Process) : Nat :=
  (ps.map (fun p => p.remaining)).sum

/-- Sum of the `burst` fields of a process list. -/
def sumBurst (ps : List Process) : Nat :=
  (ps.map (fun p => p.burst)).sum

/-- Largest arrival time in a process list (`0` for the empty list). -/
def maxArrival (ps : List Process) : Nat :=
  ps.foldr (fun p m => max p.arrival m) 0

/-- An iteration budget sufficient for the loop to terminate: every
iteration either decrements the total remaining work or advances
`currentTime` toward the largest arrival. -/
def simFuel (ps : List Process) : Nat :=
  sumRemaining ps + maxArrival ps

/-- The simulation state at the moment `runPrioritySimulation` returns. -/
def finalState (ps : List Process) : SimState :=
  simLoop (simFuel ps) (initState ps)

/-- `ganttChart.length > 0 ? ganttChart[ganttChart.length - 1].end : 0`,
source line 90. -/
def lastEnd (g : List GanttSegment) : Nat :=
  match g.getLast? with
  | some s => s.endTime
  | none => 0

/-- The result record of `runPrioritySimulation`, source line 91. -/
structure SimResult where
  processes : List Process
  gantt : List GanttSegment
  totalTime : Nat
  idleTime : Nat
deriving DecidableEq

/-- `runPrioritySimulation`, source lines 35-92. -/
def runPrioritySimulation (initialProcesses : List Process) : SimResult :=
  let st := finalState initialProcesses
  { processes := view st, gantt := st.gantt,
    totalTime := lastEnd st.gantt, idleTime := st.idleTime }

/-- A process record satisfying the input contract of spec §4.1: integer
`burst ≥ 1`, `priority ≥ 1` and `arrival ≥ 0` (integrality and the
nonnegativity of `arrival` are carried by `Nat`), with the working counter
`remaining` initialized to `burst` as every caller of the engine does when
constructing records (source lines 96-100 and 182-193). -/
def ValidProcess (p : Process) : Prop :=
  1 ≤ p.burst ∧ 1 ≤ p.priority ∧ p.remaining = p.burst

/-- A valid engine input: every record satisfies the input contract. -/
def ValidInput (ps : List Process) : Prop :=
  ∀ p ∈ ps, ValidProcess p

instance : DecidablePred ValidProcess := fun p => by
  unfold ValidProcess; infer_instance

instance (ps : List Process) : Decidable (ValidInput ps) := by
  unfold ValidInput; infer_instance

/-- The CPU-utilization computation of `handleSubmit`, source line 241:
`totalTime > 0 ? ((totalTime - idleTime) / totalTime) * 100 : 0`, with
JavaScript number arithmetic modelled over `ℚ`. -/
def cpuUtil (totalTime idleTime : Nat) : ℚ :=
  if 0 < totalTime then (((totalTime : ℚ) - idleTime) / totalTime) * 100 else 0

/-- `chainTo a g b`: the segments of `g` are consecutive half-open
intervals, each nonempty, starting at `a` and ending at `b`. -/
def chainTo : Nat → List GanttSegment → Nat → Prop
  | a, [], b => a = b
  | a, s :: rest, b => s.start = a ∧ s.start < s.endTime ∧ chainTo s.endTime rest b

/-- Loop invariant tying the timeline to the clock.  Either nothing has
happened yet (empty timeline, time 0, no previous pid, not idle), or the
timeline decomposes as `g' ++ [seg]` where the segments chain from tick 0,
the open segment `seg` ends exactly at `currentTime`, and `seg`'s label
agrees with the loop's `isIdle` / `lastProcessId` bookkeeping. -/
def GanttInv (s : SimState) : Prop :=
  (s.gantt = [] ∧ s.currentTime = 0 ∧ s.lastProcessId = none ∧ s.isIdle = false) ∨
  (∃ g' seg, s.gantt = g' ++ [seg] ∧ chainTo 0 g' seg.start ∧
    seg.start < seg.endTime ∧ seg.endTime = s.currentTime ∧
    (s.isIdle = true → seg.pid = "IDLE") ∧
    (∀ q, s.lastProcessId = some q → seg.pid = q) ∧
    (s.lastProcessId = none → seg.pid = "IDLE"))

/-- The input of spec §8 Scenario B (and claim C1):
`P1(arrival=0, burst=8, priority=2)`, `P2(arrival=1, burst=4, priority=1)`,
with the non-input fields initialized as every caller does. -/
def scenarioB : List Process :=
  [{ id := 1, pid := "P1", arrival := 0, burst := 8, priority := 2,
     remaining := 8, completionTime := 0, turnaroundTime := 0,
     waitingTime := 0, startTimes := [] },
   { id := 2, pid := "P2", arrival := 1, burst := 4, priority := 1,
     remaining := 4, completionTime := 0, turnaroundTime := 0,
     waitingTime := 0, startTimes := [] }]

/-- The input of spec §8 Scenario A: one process
`P1(arrival=0, burst=5, priority=1)`. -/
def scenarioA : List Process :=
  [{ id := 1, pid := "P1", arrival := 0, burst := 5, priority := 1,
     remaining := 5, completionTime := 0, turnaroundTime := 0,
     waitingTime := 0, startTimes := [] }]

/-- The input of spec §8 Scenario C: one process
`P1(arrival=3, burst=2, priority=1)`; its run has three leading idle
ticks, so the total time (5) exceeds the sum of bursts (2). -/
def scenarioC : List Process :=
  [{ id := 1, pid := "P1", arrival := 3, burst := 2, priority := 1,
     remaining := 2, completionTime := 0, turnaroundTime := 0,
     waitingTime := 0, startTimes := [] }]

/-- A valid input whose single process is labelled with the sentinel
string "IDLE" and arrives at tick 1: its run emits an idle segment
`[0,1)` labelled "IDLE" immediately followed by a process segment `[1,2)`
also labelled "IDLE". -/
def idleNamedInput : List Process :=
  [{ id := 1, pid := "IDLE", arrival := 1, burst := 1, priority := 1,
     remaining := 1, completionTime := 0, turnaroundTime := 0,
     waitingTime := 0, startTimes := [] }]

/-- Two processes with equal priority and equal arrival, in input order:
used to witness the tie-breaking theorem. -/
def tieInput : List Process :=
  [{ id := 1, pid := "P1", arrival := 0, burst := 2, priority := 2,
     remaining := 2, completionTime := 0, turnaroundTime := 0,
     waitingTime := 0, startTimes := [] },
   { id := 2, pid := "P2", arrival := 0, burst := 2, priority := 1,
     remaining := 2, completionTime := 0, turnaroundTime := 0,
     waitingTime := 0, startTimes := [] }]

/-- Termination measure of the loop: every iteration with a true guard
either decrements the total remaining work (a busy tick) or advances
`currentTime` strictly toward the largest arrival (an idle tick). -/
def simMeasure (s : SimState) : Nat :=
  sumRemaining (view s) + (maxArrival (view s) - s.currentTime)

/-! ### Basic list lemmas -/

theorem mem_of_get? {α : Type} {l : List α} {k : Nat} {a : α}
    (h : l.get? k = some a) : a ∈ l :=
  List.get?_mem h

theorem get?_of_mem' {α : Type} {l : List α} {a : α} (h : a ∈ l) :
    ∃ k, l.get? k = some a := by
  induction l with
  | nil => cases h
  | cons x xs ih =>
    rcases List.mem_cons.1 h with h' | h'
    · exact ⟨0, by rw [h']; rfl⟩
    · obtain ⟨k, hk⟩ := ih h'
      exact ⟨k + 1, hk⟩

theorem drop_set_ge {α : Type} :
    ∀ (l : List α) (n i : Nat) (a : α), n ≤ i →
      (l.set i a).drop n = (l.drop n).set (i - n) a := by
  intro l
  induction l with
  | nil => intro n i a _; simp
  | cons x xs ih =>
    intro n i a hni
    cases n with
    | zero => simp
    | succ m =>
      cases i with
      | zero => omega
      | succ j =>
        simp only [List.set_cons_succ, List.drop_succ_cons,
          Nat.succ_sub_succ]
        exact ih m j a (Nat.le_of_succ_le_succ hni)

theorem set_get?_self {α : Type} :
    ∀ (l : List α) (i : Nat) (a : α), i < l.length →
      (l.set i a).get? i = some a := by
  intro l
  induction l with
  | nil => intro i a h; simp at h
  | cons x xs ih =>
    intro i a h
    cases i with
    | zero => rfl
    | succ j =>
      simp only [List.set_cons_succ, List.get?_cons_succ]
      exact ih j a (by simpa using h)

theorem mem_set_cases {α : Type} :
    ∀ (l : List α) (i : Nat) (a x : α), x ∈ l.set i a → x ∈ l ∨ x = a := by
  intro l
  induction l with
  | nil => intro i a x h; simp at h
  | cons y ys ih =>
    intro i a x h
    cases i with
    | zero =>
      rw [List.set_cons_zero] at h
      rcases List.mem_cons.1 h with h' | h'
      · exact Or.inr h'
      · exact Or.inl (List.mem_cons_of_mem _ h')
    | succ j =>
      rw [List.set_cons_succ] at h
      rcases List.mem_cons.1 h with h' | h'
      · exact Or.inl (h' ▸ List.mem_cons_self _ _)
      · rcases ih j a x h' with h'' | h''
        · exact Or.inl (List.mem_cons_of_mem _ h'')
        · exact Or.inr h''

/-! ### Lemmas about the indexed ready queue -/

theorem enumFrom_bounds {α : Type} :
    ∀ (l : List α) (n : Nat) (i : Nat) (a : α),
      (i, a) ∈ List.enumFrom n l → n ≤ i ∧ l.get? (i - n) = some a := by
  intro l
  induction l with
  | nil => intro n i a h; simp [List.enumFrom] at h
  | cons x xs ih =>
    intro n i a h
    rw [List.enumFrom, List.mem_cons] at h
    rcases h with h | h
    · injection h with h1 h2
      subst h1
      subst h2
      simp
    · obtain ⟨hle, hget⟩ := ih (n + 1) i a h
      refine ⟨by omega, ?_⟩
      have hin : i - n = (i - (n + 1)) + 1 := by omega
      rw [hin]
      simpa using hget

theorem get?_mem_enumFrom {α : Type} :
    ∀ (l : List α) (n k : Nat) (a : α),
      l.get? k = some a → (n + k, a) ∈ List.enumFrom n l := by
  intro l
  induction l with
  | nil => intro n k a h; simp at h
  | cons x xs ih =>
    intro n k a h
    cases k with
    | zero =>
      rw [List.get?_cons_zero] at h
      injection h with h1
      subst h1
      simp [List.enumFrom]
    | succ j =>
      have hmem := ih (n + 1) j a (by simpa using h)
      rw [List.enumFrom, List.mem_cons]
      right
      have heq : n + (j + 1) = (n + 1) + j := by omega
      rw [heq]
      exact hmem

theorem pairwise_enumFrom {α : Type} :
    ∀ (l : List α) (n : Nat),
      (List.enumFrom n l).Pairwise (fun x y => x.1 < y.1) := by
  intro l
  induction l with
  | nil => intro n; simp [List.enumFrom]
  | cons x xs ih =>
    intro n
    rw [List.enumFrom]
    refine List.pairwise_cons.2 ⟨?_, ih (n + 1)⟩
    intro y hy
    have hb := (enumFrom_bounds xs (n + 1) y.1 y.2 (by
      simpa using hy)).1
    simp only []
    omega

theorem readyPairs_mem {ps : List Process} {t : Nat} {i : Nat} {p : Process}
    (h : (i, p) ∈ readyPairs ps t) :
    ps.get? i = some p ∧ p.arrival ≤ t ∧ 0 < p.remaining := by
  unfold readyPairs at h
  obtain ⟨hmem, hcond⟩ := List.mem_filter.1 h
  have hb := enumFrom_bounds ps 0 i p (by simpa [List.enum] using hmem)
  simp only [Bool.and_eq_true, decide_eq_true_eq] at hcond
  exact ⟨by simpa using hb.2, hcond.1, hcond.2⟩

theorem readyPairs_of_get? {ps : List Process} {t : Nat} {i : Nat}
    {p : Process} (hget : ps.get? i = some p) (ha : p.arrival ≤ t)
    (hr : 0 < p.remaining) : (i, p) ∈ readyPairs ps t := by
  unfold readyPairs
  refine List.mem_filter.2 ⟨?_, ?_⟩
  · have := get?_mem_enumFrom ps 0 i p hget
    simpa [List.enum] using this
  · simp only [Bool.and_eq_true, decide_eq_true_eq]
    exact ⟨ha, hr⟩

theorem readyPairs_pairwise (ps : List Process) (t : Nat) :
    (readyPairs ps t).Pairwise (fun x y => x.1 < y.1) := by
  unfold readyPairs
  exact (pairwise_enumFrom ps 0).filter _

/-! ### The comparator -/

theorem cmpLt_iff {a b : Process} :
    cmpLt a b = true ↔
      a.priority < b.priority ∨
        (a.priority = b.priority ∧ a.arrival < b.arrival) := by
  simp [cmpLt, Bool.or_eq_true, Bool.and_eq_true, decide_eq_true_eq,
    beq_iff_eq]

theorem cmpLt_eq_false_iff {a b : Process} :
    cmpLt a b = false ↔
      ¬(a.priority < b.priority ∨
          (a.priority = b.priority ∧ a.arrival < b.arrival)) := by
  rw [← cmpLt_iff]
  cases h : cmpLt a b <;> simp

theorem cmpLt_trans {a b c : Process} (h1 : cmpLt a b = true)
    (h2 : cmpLt b c = true) : cmpLt a c = true := by
  rw [cmpLt_iff] at *
  omega

theorem cmpLt_lt_le {a b c : Process} (h1 : cmpLt a b = true)
    (h2 : cmpLt c b = false) : cmpLt a c = true := by
  rw [cmpLt_iff] at *
  rw [cmpLt_eq_false_iff] at h2
  omega

theorem cmpLt_le_lt {a b c : Process} (h1 : cmpLt a b = false)
    (h2 : cmpLt a c = true) : cmpLt b c = true := by
  rw [cmpLt_iff] at *
  rw [cmpLt_eq_false_iff] at h1
  omega

theorem cmpLt_of_eq_keys {a b : Process} (h1 : a.priority = b.priority)
    (h2 : a.arrival = b.arrival) : cmpLt a b = false := by
  rw [cmpLt_eq_false_iff]
  omega

theorem not_priority_lt_of_cmpLt_false {a b : Process}
    (h : cmpLt a b = false) : ¬ a.priority < b.priority := by
  rw [cmpLt_eq_false_iff] at h
  omega

/-! ### The stable selection -/

theorem selMin_mem :
    ∀ (xs : List (Nat × Process)) (best r : Nat × Process),
      selMin best xs = r → r ∈ best :: xs := by
  intro xs
  induction xs with
  | nil =>
    intro best r h
    rw [selMin] at h
    simp [← h]
  | cons x xs ih =>
    intro best r h
    rw [selMin] at h
    by_cases hc : cmpLt x.2 best.2 = true
    · rw [if_pos hc] at h
      rcases List.mem_cons.1 (ih x r h) with h' | h'
      · simp [h']
      · simp [List.mem_cons_of_mem, h']
    · rw [if_neg hc] at h
      rcases List.mem_cons.1 (ih best r h) with h' | h'
      · simp [h']
      · simp [List.mem_cons_of_mem, h']

theorem selMin_min :
    ∀ (xs : List (Nat × Process)) (best r : Nat × Process),
      selMin best xs = r →
        ∀ y ∈ best :: xs, cmpLt y.2 r.2 = false := by
  intro xs
  induction xs with
  | nil =>
    intro best r h y hy
    rw [selMin] at h
    rcases List.mem_cons.1 hy with hy | hy
    · subst h; subst hy; exact cmpLt_of_eq_keys rfl rfl
    · cases hy
  | cons x xs ih =>
    intro best r h y hy
    rw [selMin] at h
    by_cases hc : cmpLt x.2 best.2 = true
    · rw [if_pos hc] at h
      rcases List.mem_cons.1 hy with hy | hy
      · -- y = best; if best beat the result, then x would beat it too
        subst hy
        by_cases hbr : cmpLt y.2 r.2 = true
        · have hx : cmpLt x.2 r.2 = false :=
            ih x r h x (List.mem_cons_self _ _)
          rw [cmpLt_trans hc hbr] at hx
          cases hx
        · simpa using hbr
      · exact ih x r h y hy
    · rw [if_neg hc] at h
      have hb : cmpLt best.2 r.2 = false :=
        ih best r h best (List.mem_cons_self _ _)
      rcases List.mem_cons.1 hy with hy | hy
      · exact hy ▸ hb
      · rcases List.mem_cons.1 hy with hy | hy
        · -- y = x; best is not above x, so x beating r would put best above r
          subst hy
          by_cases hxr : cmpLt y.2 r.2 = true
          · have hF : cmpLt y.2 best.2 = false := by
              simpa using hc
            rw [cmpLt_le_lt hF hxr] at hb
            cases hb
          · simpa using hxr
        · exact ih best r h y (List.mem_cons_of_mem _ hy)

theorem selMin_first :
    ∀ (xs : List (Nat × Process)) (best r : Nat × Process),
      selMin best xs = r →
        r = best ∨
          ∃ l₁ l₂, xs = l₁ ++ r :: l₂ ∧
            ∀ y ∈ best :: l₁, cmpLt r.2 y.2 = true := by
  intro xs
  induction xs with
  | nil =>
    intro best r h
    rw [selMin] at h
    exact Or.inl h.symm
  | cons x xs ih =>
    intro best r h
    rw [selMin] at h
    by_cases hc : cmpLt x.2 best.2 = true
    · rw [if_pos hc] at h
      rcases ih x r h with h' | h'
      · refine Or.inr ⟨[], xs, by rw [h']; rfl, ?_⟩
        intro y hy
        rcases List.mem_cons.1 hy with hy | hy
        · subst hy; rw [h']; exact hc
        · cases hy
      · obtain ⟨l₁, l₂, hdec, hall⟩ := h'
        refine Or.inr ⟨x :: l₁, l₂, by rw [List.cons_append, ← hdec], ?_⟩
        intro y hy
        rcases List.mem_cons.1 hy with hy | hy
        · -- y = best: r is below x, which is below best
          have hx : cmpLt r.2 x.2 = true :=
            hall x (List.mem_cons_self _ _)
          exact hy ▸ cmpLt_trans hx hc
        · exact hall y hy
    · rw [if_neg hc] at h
      rcases ih best r h with h' | h'
      · exact Or.inl h'
      · obtain ⟨l₁, l₂, hdec, hall⟩ := h'
        refine Or.inr ⟨x :: l₁, l₂, by rw [List.cons_append, ← hdec], ?_⟩
        intro y hy
        rcases List.mem_cons.1 hy with hy | hy
        · exact hy ▸ hall best (List.mem_cons_self _ _)
        · rcases List.mem_cons.1 hy with hy | hy
          · -- y = x: r is below best, which is not above x
            have hbestr : cmpLt r.2 best.2 = true :=
              hall best (List.mem_cons_self _ _)
            have hF : cmpLt x.2 best.2 = false := by simpa using hc
            exact hy ▸ cmpLt_lt_le hbestr hF
          · exact hall y (List.mem_cons_of_mem _ hy)

/-! ### Selection of the running process -/

theorem select_eq_none_iff {ps : List Process} {t : Nat} :
    select ps t = none ↔ readyPairs ps t = [] := by
  unfold select
  cases h : readyPairs ps t <;> simp

theorem select_some_mem {ps : List Process} {t : Nat} {ip : Nat × Process}
    (h : select ps t = some ip) : ip ∈ readyPairs ps t := by
  unfold select at h
  cases hr : readyPairs ps t with
  | nil => rw [hr] at h; cases h
  | cons x xs =>
    rw [hr] at h
    injection h with h
    exact hr ▸ selMin_mem xs x ip h

theorem select_min {ps : List Process} {t : Nat} {ip : Nat × Process}
    (h : select ps t = some ip) :
    ∀ y ∈ readyPairs ps t, cmpLt y.2 ip.2 = false := by
  unfold select at h
  cases hr : readyPairs ps t with
  | nil => rw [hr] at h; cases h
  | cons x xs =>
    rw [hr] at h
    injection h with h
    exact selMin_min xs x ip h

theorem select_first {ps : List Process} {t : Nat} {ip : Nat × Process}
    (h : select ps t = some ip) :
    ∃ l₁ l₂, readyPairs ps t = l₁ ++ ip :: l₂ ∧
      ∀ y ∈ l₁, cmpLt ip.2 y.2 = true := by
  unfold select at h
  cases hr : readyPairs ps t with
  | nil => rw [hr] at h; cases h
  | cons x xs =>
    rw [hr] at h
    injection h with h
    rcases selMin_first xs x ip h with h' | h'
    · exact ⟨[], xs, by simp [hr, h'], fun y hy => by cases hy⟩
    · obtain ⟨l₁, l₂, hdec, hall⟩ := h'
      exact ⟨x :: l₁, l₂, by rw [List.cons_append, ← hdec], hall⟩

/-! ### Sums and maxima over the working array -/

theorem sumRemaining_nil : sumRemaining [] = 0 := rfl

theorem sumRemaining_cons (p : Process) (ps : List Process) :
    sumRemaining (p :: ps) = p.remaining + sumRemaining ps := by
  simp [sumRemaining]

theorem sumRemaining_set :
    ∀ (ps : List Process) (i : Nat) (p q : Process),
      ps.get? i = some p →
        sumRemaining (ps.set i q) + p.remaining = sumRemaining ps + q.remaining := by
  intro ps
  induction ps with
  | nil => intro i p q h; simp at h
  | cons x xs ih =>
    intro i p q h
    cases i with
    | zero =>
      rw [List.get?_cons_zero] at h
      injection h with h
      subst h
      rw [List.set_cons_zero, sumRemaining_cons, sumRemaining_cons]
      omega
    | succ j =>
      rw [List.get?_cons_succ] at h
      rw [List.set_cons_succ, sumRemaining_cons, sumRemaining_cons]
      have := ih j p q h
      omega

theorem remaining_le_sum {ps : List Process} {p : Process} (h : p ∈ ps) :
    p.remaining ≤ sumRemaining ps := by
  induction ps with
  | nil => cases h
  | cons x xs ih =>
    rw [sumRemaining_cons]
    rcases List.mem_cons.1 h with h' | h'
    · rw [h']; omega
    · have := ih h'
      omega

theorem maxArrival_cons (p : Process) (ps : List Process) :
    maxArrival (p :: ps) = max p.arrival (maxArrival ps) := rfl

theorem maxArrival_set :
    ∀ (ps : List Process) (i : Nat) (p q : Process),
      ps.get? i = some p → q.arrival = p.arrival →
        maxArrival (ps.set i q) = maxArrival ps := by
  intro ps
  induction ps with
  | nil => intro i p q h _; simp at h
  | cons x xs ih =>
    intro i p q h ha
    cases i with
    | zero =>
      rw [List.get?_cons_zero] at h
      injection h with h
      subst h
      rw [List.set_cons_zero, maxArrival_cons, maxArrival_cons, ha]
    | succ j =>
      rw [List.get?_cons_succ] at h
      rw [List.set_cons_succ, maxArrival_cons, maxArrival_cons, ih j p q h ha]

theorem arrival_le_max {ps : List Process} {p : Process} (h : p ∈ ps) :
    p.arrival ≤ maxArrival ps := by
  induction ps with
  | nil => cases h
  | cons x xs ih =>
    rw [maxArrival_cons]
    rcases List.mem_cons.1 h with h' | h'
    · rw [h']; omega
    · have := ih h'
      omega

theorem sumRemaining_eq_sumBurst {ps : List Process} (h : ValidInput ps) :
    sumRemaining ps = sumBurst ps := by
  induction ps with
  | nil => rfl
  | cons x xs ih =>
    have hx := h x (List.mem_cons_self _ _)
    have hxs : ValidInput xs := fun p hp => h p (List.mem_cons_of_mem _ hp)
    rw [sumRemaining_cons]
    show x.remaining + sumRemaining xs = x.burst + sumBurst xs
    rw [hx.2.2, ih hxs]

/-! ### Structure of one loop iteration -/

theorem tickResult_id (t : Nat) (q : Process) :
    (tickResult t q).id = q.id := by
  unfold tickResult tickComplete; split <;> rfl

theorem tickResult_pid (t : Nat) (q : Process) :
    (tickResult t q).pid = q.pid := by
  unfold tickResult tickComplete; split <;> rfl

theorem tickResult_arrival (t : Nat) (q : Process) :
    (tickResult t q).arrival = q.arrival := by
  unfold tickResult tickComplete; split <;> rfl

theorem tickResult_burst (t : Nat) (q : Process) :
    (tickResult t q).burst = q.burst := by
  unfold tickResult tickComplete; split <;> rfl

theorem tickResult_priority (t : Nat) (q : Process) :
    (tickResult t q).priority = q.priority := by
  unfold tickResult tickComplete; split <;> rfl

theorem tickResult_remaining (t : Nat) (q : Process) :
    (tickResult t q).remaining = q.remaining - 1 := by
  unfold tickResult tickComplete; split <;> rfl

theorem view_runTick (s : SimState) (i : Nat) (p₁ : Process)
    (g : List GanttSegment) (idl : Bool) :
    view (runTick s i p₁ g idl) =
      (view s).set i (tickResult s.currentTime p₁) := by
  unfold view runTick
  rw [drop_set_ge s.heap s.base (s.base + i) _ (Nat.le_add_right _ _)]
  rw [Nat.add_sub_cancel_left]

theorem view_idleTick (s : SimState) : view (idleTick s) = view s := rfl

theorem step_none {s : SimState}
    (h : select (view s) s.currentTime = none) : step s = idleTick s := by
  unfold step
  rw [h]

theorem step_some {s : SimState} {i : Nat} {p : Process}
    (h : select (view s) s.currentTime = some (i, p)) :
    step s =
      if s.lastProcessId = some p.pid then
        runTick s i p (extendLast s.gantt (s.currentTime + 1)) s.isIdle
      else
        runTick s i
          (if p.startTimes = [] then { p with startTimes := [s.currentTime] } else p)
          (s.gantt ++ [{ pid := p.pid, start := s.currentTime,
                         endTime := s.currentTime + 1, id := some p.id }])
          false := by
  unfold step
  rw [h]

/-- Packaged description of a busy iteration: there is a record `p₁` equal
to the selected `p` except possibly in `startTimes`, and the iteration
writes `tickResult` of `p₁` at index `i` of the working array, advances
time, keeps the idle counter and remembers the pid. -/
theorem step_busy {s : SimState} {i : Nat} {p : Process}
    (h : select (view s) s.currentTime = some (i, p)) :
    ∃ p₁ : Process,
      p₁.id = p.id ∧ p₁.pid = p.pid ∧ p₁.arrival = p.arrival ∧
      p₁.burst = p.burst ∧ p₁.priority = p.priority ∧
      p₁.remaining = p.remaining ∧
      p₁.completionTime = p.completionTime ∧
      p₁.turnaroundTime = p.turnaroundTime ∧
      p₁.waitingTime = p.waitingTime ∧
      view (step s) = (view s).set i (tickResult s.currentTime p₁) ∧
      (step s).currentTime = s.currentTime + 1 ∧
      (step s).idleTime = s.idleTime ∧
      (step s).base = s.base ∧
      (step s).lastProcessId = some p.pid := by
  rw [step_some h]
  by_cases hl : s.lastProcessId = some p.pid
  · rw [if_pos hl]
    refine ⟨p, rfl, rfl, rfl, rfl, rfl, rfl, rfl, rfl, rfl, ?_, rfl, rfl, rfl, rfl⟩
    exact view_runTick ..
  · rw [if_neg hl]
    by_cases hst : p.startTimes = []
    · rw [if_pos hst]
      refine ⟨{ p with startTimes := [s.currentTime] },
        rfl, rfl, rfl, rfl, rfl, rfl, rfl, rfl, rfl, ?_, rfl, rfl, rfl, rfl⟩
      exact view_runTick ..
    · rw [if_neg hst]
      refine ⟨p, rfl, rfl, rfl, rfl, rfl, rfl, rfl, rfl, rfl, ?_, rfl, rfl, rfl, rfl⟩
      exact view_runTick ..

theorem step_idle_fields {s : SimState}
    (h : select (view s) s.currentTime = none) :
    view (step s) = view s ∧
    (step s).currentTime = s.currentTime + 1 ∧
    (step s).idleTime = s.idleTime + 1 ∧
    (step s).base = s.base ∧
    (step s).lastProcessId = none := by
  rw [step_none h]
  exact ⟨rfl, rfl, rfl, rfl, rfl⟩

/-! ### The loop guard and termination -/

theorem simGuard_iff {s : SimState} :
    simGuard s = true ↔ ∃ p ∈ view s, 0 < p.remaining := by
  unfold simGuard
  rw [List.any_eq_true]
  constructor
  · rintro ⟨p, hp, hc⟩
    exact ⟨p, hp, by simpa using hc⟩
  · rintro ⟨p, hp, hc⟩
    exact ⟨p, hp, by simpa using hc⟩

theorem idle_time_lt_max {s : SimState} (hg : simGuard s = true)
    (hn : select (view s) s.currentTime = none) :
    s.currentTime < maxArrival (view s) := by
  obtain ⟨p, hp, hr⟩ := simGuard_iff.1 hg
  have hready : readyPairs (view s) s.currentTime = [] :=
    select_eq_none_iff.1 hn
  by_contra hcon
  obtain ⟨k, hk⟩ := get?_of_mem' hp
  by_cases ha : p.arrival ≤ s.currentTime
  · have := readyPairs_of_get? hk ha hr
    rw [hready] at this
    cases this
  · have := arrival_le_max hp
    omega

theorem simMeasure_step_lt {s : SimState} (hg : simGuard s = true) :
    simMeasure (step s) < simMeasure s := by
  cases h : select (view s) s.currentTime with
  | none =>
    obtain ⟨hv, ht, _, _, _⟩ := step_idle_fields h
    have hlt := idle_time_lt_max hg h
    unfold simMeasure
    rw [hv, ht]
    omega
  | some ip =>
    obtain ⟨i, p⟩ := ip
    obtain ⟨p₁, _, _, ha, _, _, hr, _, _, _, hv, ht, _, _, _⟩ := step_busy h
    have hmem := select_some_mem h
    obtain ⟨hget, harr, hrem⟩ := readyPairs_mem hmem
    unfold simMeasure
    rw [hv, ht]
    have hsum := sumRemaining_set (view s) i p (tickResult s.currentTime p₁) hget
    have hmax := maxArrival_set (view s) i p (tickResult s.currentTime p₁) hget
      (by rw [tickResult_arrival, ha])
    rw [hmax]
    rw [tickResult_remaining, hr] at hsum
    omega

theorem simLoop_inv {I : SimState → Prop}
    (hstep : ∀ s, simGuard s = true → I s → I (step s)) :
    ∀ (fuel : Nat) (s : SimState), I s → I (simLoop fuel s) := by
  intro fuel
  induction fuel with
  | zero => intro s hI; exact hI
  | succ n ih =>
    intro s hI
    rw [simLoop]
    by_cases hg : simGuard s = true
    · rw [if_pos hg]
      exact ih (step s) (hstep s hg hI)
    · rw [if_neg hg]
      exact hI

theorem simLoop_done :
    ∀ (fuel : Nat) (s : SimState), simMeasure s ≤ fuel →
      simGuard (simLoop fuel s) = false := by
  intro fuel
  induction fuel with
  | zero =>
    intro s hm
    rw [simLoop]
    by_contra hg
    rw [Bool.not_eq_false] at hg
    obtain ⟨p, hp, hr⟩ := simGuard_iff.1 hg
    have := remaining_le_sum hp
    unfold simMeasure at hm
    omega
  | succ n ih =>
    intro s hm
    rw [simLoop]
    by_cases hg : simGuard s = true
    · rw [if_pos hg]
      exact ih (step s) (by have := simMeasure_step_lt hg; omega)
    · rw [if_neg hg]
      simpa using hg

theorem cloneProcess_eq (p : Process) : cloneProcess p = p := rfl

theorem view_initState (ps : List Process) : view (initState ps) = ps := by
  unfold view initState
  show (ps ++ ps.map cloneProcess).drop ps.length = _
  rw [List.drop_left]
  have : ps.map cloneProcess = ps := by
    induction ps with
    | nil => rfl
    | cons x xs ih => rw [List.map_cons, cloneProcess_eq, ih]
  exact this

theorem finalState_guard (ps : List Process) :
    simGuard (finalState ps) = false := by
  unfold finalState
  apply simLoop_done
  unfold simMeasure simFuel
  rw [view_initState]
  show sumRemaining ps + (maxArrival ps - 0) ≤ _
  omega

theorem finalState_done {ps : List Process} :
    ∀ p ∈ view (finalState ps), p.remaining = 0 := by
  intro p hp
  have hg := finalState_guard ps
  by_contra hr
  have : simGuard (finalState ps) = true :=
    simGuard_iff.2 ⟨p, hp, by omega⟩
  rw [this] at hg
  cases hg

/-! ### The timeline chain invariant -/

theorem extendLast_snoc :
    ∀ (g : List GanttSegment) (seg : GanttSegment) (e : Nat),
      extendLast (g ++ [seg]) e = g ++ [{ seg with endTime := e }] := by
  intro g
  induction g with
  | nil => intro seg e; rfl
  | cons x g ih =>
    intro seg e
    cases g with
    | nil => rfl
    | cons y g' =>
      show x :: extendLast ((y :: g') ++ [seg]) e = _
      rw [ih seg e]
      rfl

theorem chainTo_snoc {a m : Nat} {seg : GanttSegment} :
    ∀ (g : List GanttSegment), chainTo a g m → seg.start = m →
      seg.start < seg.endTime → chainTo a (g ++ [seg]) seg.endTime := by
  intro g
  induction g generalizing a with
  | nil =>
    intro hc hs hlt
    exact ⟨by rw [hs, ← hc], hlt, rfl⟩
  | cons x g ih =>
    intro hc hs hlt
    obtain ⟨h1, h2, h3⟩ := hc
    exact ⟨h1, h2, ih h3 hs hlt⟩

theorem chainTo_le {b : Nat} :
    ∀ (g : List GanttSegment) (a : Nat), chainTo a g b → a ≤ b := by
  intro g
  induction g with
  | nil => intro a h; exact Nat.le_of_eq h
  | cons x g ih =>
    intro a h
    obtain ⟨h1, h2, h3⟩ := h
    have := ih x.endTime h3
    omega

theorem chainTo_cover {b : Nat} :
    ∀ (g : List GanttSegment) (a : Nat), chainTo a g b →
      ∀ x, (∃ seg ∈ g, seg.start ≤ x ∧ x < seg.endTime) ↔ (a ≤ x ∧ x < b) := by
  intro g
  induction g with
  | nil =>
    intro a h x
    constructor
    · rintro ⟨seg, hm, _⟩; cases hm
    · intro hx
      rw [chainTo] at h
      omega
  | cons s g ih =>
    intro a h x
    obtain ⟨h1, h2, h3⟩ := h
    have hle := chainTo_le g s.endTime h3
    constructor
    · rintro ⟨seg, hm, hx1, hx2⟩
      rcases List.mem_cons.1 hm with hm' | hm'
      · subst hm'; omega
      · have := (ih s.endTime h3 x).1 ⟨seg, hm', hx1, hx2⟩
        omega
    · intro hx
      by_cases hxe : x < s.endTime
      · exact ⟨s, List.mem_cons_self _ _, by omega, hxe⟩
      · obtain ⟨seg, hm, hr⟩ := (ih s.endTime h3 x).2 (by omega)
        exact ⟨seg, List.mem_cons_of_mem _ hm, hr⟩

theorem lastEnd_concat (g : List GanttSegment) (seg : GanttSegment) :
    lastEnd (g ++ [seg]) = seg.endTime := by
  unfold lastEnd
  rw [List.getLast?_concat]

theorem ganttInv_init (ps : List Process) : GanttInv (initState ps) :=
  Or.inl ⟨rfl, rfl, rfl, rfl⟩

theorem ganttInv_step (s : SimState) (h : GanttInv s) : GanttInv (step s) := by
  cases hsel : select (view s) s.currentTime with
  | none =>
    rw [step_none hsel]
    rcases h with ⟨hg, ht, hla, hid⟩ |
      ⟨g', seg, hdec, hchain, hlt, hend, hidle, hlastq, hnone⟩
    · -- nothing yet: push the first IDLE segment
      refine Or.inr ⟨[], ⟨"IDLE", s.currentTime, s.currentTime + 1, none⟩,
        ?_, ht.symm, Nat.lt_succ_self _, rfl, fun _ => rfl, ?_, fun _ => rfl⟩
      · show (if s.isIdle = false then s.gantt ++ _ else _) = _
        rw [if_pos hid, hg]
      · intro q hq; cases hq
    · by_cases hid : s.isIdle = false
      · -- was running: push a new IDLE segment after the open one
        refine Or.inr ⟨g' ++ [seg], ⟨"IDLE", s.currentTime, s.currentTime + 1, none⟩,
          ?_, ?_, Nat.lt_succ_self _, rfl, fun _ => rfl, ?_, fun _ => rfl⟩
        · show (if s.isIdle = false then s.gantt ++ _ else _) = _
          rw [if_pos hid, hdec]
        · show chainTo 0 (g' ++ [seg]) s.currentTime
          rw [← hend]
          exact chainTo_snoc g' hchain rfl hlt
        · intro q hq; cases hq
      · -- already idle: extend the open IDLE segment
        have hid' : s.isIdle = true := by
          cases hb : s.isIdle
          · rw [hb] at hid; cases hid rfl
          · rfl
        refine Or.inr ⟨g', { seg with endTime := s.currentTime + 1 }, ?_,
          hchain, show seg.start < s.currentTime + 1 by omega, rfl,
          fun _ => hidle hid', ?_, fun _ => hidle hid'⟩
        · show (if s.isIdle = false then _ else extendLast s.gantt _) = _
          rw [if_neg hid, hdec, extendLast_snoc]
        · intro q hq; cases hq
  | some ip =>
    obtain ⟨i, p⟩ := ip
    rw [step_some hsel]
    by_cases hl : s.lastProcessId = some p.pid
    · rw [if_pos hl]
      rcases h with ⟨hg, ht, hla, hid⟩ |
        ⟨g', seg, hdec, hchain, hlt, hend, hidle, hlastq, hnone⟩
      · rw [hla] at hl; cases hl
      · have hpid : seg.pid = p.pid := hlastq p.pid hl
        refine Or.inr ⟨g', { seg with endTime := s.currentTime + 1 }, ?_,
          hchain, show seg.start < s.currentTime + 1 by omega, rfl,
          fun hidl => by simpa using hidle hidl, ?_, ?_⟩
        · show extendLast s.gantt _ = _
          rw [hdec, extendLast_snoc]
        · intro q hq
          injection hq with hq
          rw [← hq]
          exact hpid
        · intro hq; cases hq
    · rw [if_neg hl]
      have hp1 : (if p.startTimes = [] then
          { p with startTimes := [s.currentTime] } else p).pid = p.pid := by
        split <;> rfl
      rcases h with ⟨hg, ht, hla, hid⟩ |
        ⟨g', seg, hdec, hchain, hlt, hend, hidle, hlastq, hnone⟩
      · refine Or.inr ⟨[], ⟨p.pid, s.currentTime, s.currentTime + 1, some p.id⟩,
          ?_, ht.symm, Nat.lt_succ_self _, rfl, ?_, ?_, ?_⟩
        · show s.gantt ++ _ = _
          rw [hg]
        · intro hq; cases hq
        · intro q hq
          have hq2 : some p.pid = some q := by rw [← hp1]; exact hq
          injection hq2
        · intro hq; cases hq
      · refine Or.inr ⟨g' ++ [seg], ⟨p.pid, s.currentTime, s.currentTime + 1, some p.id⟩,
          ?_, ?_, Nat.lt_succ_self _, rfl, ?_, ?_, ?_⟩
        · show s.gantt ++ _ = _
          rw [hdec]
        · show chainTo 0 (g' ++ [seg]) s.currentTime
          rw [← hend]
          exact chainTo_snoc g' hchain rfl hlt
        · intro hq; cases hq
        · intro q hq
          have hq2 : some p.pid = some q := by rw [← hp1]; exact hq
          injection hq2
        · intro hq; cases hq

theorem ganttInv_final (ps : List Process) : GanttInv (finalState ps) := by
  unfold finalState
  exact simLoop_inv (fun s _ h => ganttInv_step s h) (simFuel ps)
    (initState ps) (ganttInv_init ps)

theorem lastEnd_eq_time {s : SimState} (h : GanttInv s) :
    lastEnd s.gantt = s.currentTime := by
  rcases h with ⟨hg, ht, _, _⟩ | ⟨g', seg, hdec, _, _, hend, _, _, _⟩
  · rw [hg, ht]; rfl
  · rw [hdec, lastEnd_concat, hend]

theorem chainTo_lastEnd {s : SimState} (h : GanttInv s) :
    chainTo 0 s.gantt (lastEnd s.gantt) := by
  rcases h with ⟨hg, _, _, _⟩ | ⟨g', seg, hdec, hchain, hlt, _, _, _, _⟩
  · rw [hg]; rfl
  · rw [hdec, lastEnd_concat]
    exact chainTo_snoc g' hchain rfl hlt

/-! ### Accounting invariants: time, idle ticks, and remaining work -/

theorem sumRemaining_eq_zero {l : List Process}
    (h : ∀ p ∈ l, p.remaining = 0) : sumRemaining l = 0 := by
  induction l with
  | nil => rfl
  | cons x xs ih =>
    rw [sumRemaining_cons, h x (List.mem_cons_self _ _),
      ih (fun p hp => h p (List.mem_cons_of_mem _ hp))]

/-- Every tick is either busy (total remaining work drops by one) or idle
(the idle counter rises by one): `currentTime` splits exactly into executed
work and idle ticks. -/
theorem time_accounting (ps : List Process) :
    (finalState ps).currentTime + sumRemaining (view (finalState ps)) =
      sumRemaining ps + (finalState ps).idleTime := by
  unfold finalState
  have hstep : ∀ s, simGuard s = true →
      s.currentTime + sumRemaining (view s) = sumRemaining ps + s.idleTime →
      (step s).currentTime + sumRemaining (view (step s)) =
        sumRemaining ps + (step s).idleTime := by
    intro s _ hI
    cases hsel : select (view s) s.currentTime with
    | none =>
      obtain ⟨hv, ht, hi, _, _⟩ := step_idle_fields hsel
      rw [ht, hv, hi]
      omega
    | some ip =>
      obtain ⟨i, p⟩ := ip
      obtain ⟨p₁, _, _, _, _, _, hr, _, _, _, hv, ht, hi, _, _⟩ :=
        step_busy hsel
      obtain ⟨hget, _, hrem⟩ := readyPairs_mem (select_some_mem hsel)
      have hsum := sumRemaining_set (view s) i p
        (tickResult s.currentTime p₁) hget
      rw [tickResult_remaining, hr] at hsum
      rw [ht, hv, hi]
      omega
  have hinit : (initState ps).currentTime + sumRemaining (view (initState ps)) =
      sumRemaining ps + (initState ps).idleTime := by
    rw [view_initState]
    show 0 + sumRemaining ps = sumRemaining ps + 0
    omega
  exact simLoop_inv hstep (simFuel ps) (initState ps) hinit

/-- Idle ticks happen only while `currentTime` is still below the largest
arrival, so they number at most `maxArrival`; the arrivals of the working
records never change. -/
theorem idle_bound (ps : List Process) :
    (finalState ps).idleTime ≤ (finalState ps).currentTime ∧
    (finalState ps).idleTime ≤ maxArrival (view (finalState ps)) ∧
    maxArrival (view (finalState ps)) = maxArrival ps := by
  unfold finalState
  have hstep : ∀ s, simGuard s = true →
      (s.idleTime ≤ s.currentTime ∧ s.idleTime ≤ maxArrival (view s) ∧
        maxArrival (view s) = maxArrival ps) →
      ((step s).idleTime ≤ (step s).currentTime ∧
        (step s).idleTime ≤ maxArrival (view (step s)) ∧
        maxArrival (view (step s)) = maxArrival ps) := by
    intro s hg hI
    obtain ⟨h1, h2, h3⟩ := hI
    cases hsel : select (view s) s.currentTime with
    | none =>
      obtain ⟨hv, ht, hi, _, _⟩ := step_idle_fields hsel
      have hlt := idle_time_lt_max hg hsel
      rw [ht, hv, hi]
      exact ⟨by omega, by omega, h3⟩
    | some ip =>
      obtain ⟨i, p⟩ := ip
      obtain ⟨p₁, _, _, ha, _, _, _, _, _, _, hv, ht, hi, _, _⟩ :=
        step_busy hsel
      obtain ⟨hget, _, _⟩ := readyPairs_mem (select_some_mem hsel)
      have hmax := maxArrival_set (view s) i p (tickResult s.currentTime p₁)
        hget (by rw [tickResult_arrival, ha])
      rw [ht, hv, hi, hmax]
      exact ⟨by omega, h2, h3⟩
  have hinit : (initState ps).idleTime ≤ (initState ps).currentTime ∧
      (initState ps).idleTime ≤ maxArrival (view (initState ps)) ∧
      maxArrival (view (initState ps)) = maxArrival ps := by
    rw [view_initState]
    exact ⟨Nat.le_refl _, Nat.zero_le _, rfl⟩
  exact simLoop_inv hstep (simFuel ps) (initState ps) hinit

/-- On a valid input the loop runs the full burst of every process, so the
final clock reads the total burst plus the idle ticks. -/
theorem totalTime_spec (ps : List Process) (hv : ValidInput ps) :
    (runPrioritySimulation ps).totalTime =
      sumBurst ps + (runPrioritySimulation ps).idleTime := by
  show lastEnd (finalState ps).gantt = sumBurst ps + (finalState ps).idleTime
  rw [lastEnd_eq_time (ganttInv_final ps)]
  have hacc := time_accounting ps
  have hzero : sumRemaining (view (finalState ps)) = 0 :=
    sumRemaining_eq_zero finalState_done
  rw [← sumRemaining_eq_sumBurst hv]
  omega

/-! ### Per-process completion invariants -/

theorem tickResult_zero_fields (t : Nat) (q : Process)
    (hz : q.remaining - 1 = 0) :
    (tickResult t q).completionTime = t + 1 ∧
    (tickResult t q).turnaroundTime = (t + 1 : Int) - q.arrival ∧
    (tickResult t q).waitingTime = ((t + 1 : Int) - q.arrival) - q.burst := by
  have hc : ({ q with remaining := q.remaining - 1 } : Process).remaining = 0 := hz
  unfold tickResult tickComplete
  rw [if_pos hc]
  exact ⟨rfl, rfl, rfl⟩

theorem tickResult_pos_fields (t : Nat) (q : Process)
    (hz : ¬ (q.remaining - 1 = 0)) :
    (tickResult t q).completionTime = q.completionTime ∧
    (tickResult t q).turnaroundTime = q.turnaroundTime ∧
    (tickResult t q).waitingTime = q.waitingTime := by
  have hc : ¬ (({ q with remaining := q.remaining - 1 } : Process).remaining = 0) := hz
  unfold tickResult tickComplete
  rw [if_neg hc]
  exact ⟨rfl, rfl, rfl⟩

/-- Per-process invariant: `remaining` never exceeds `burst`; a started
process has run `burst - remaining` ticks, each at a time at least its
arrival, so the clock is at least `arrival + (burst - remaining)`; and a
finished process carries `completionTime ≥ arrival + burst` together with
the turnaround and waiting equations of source lines 84-86. -/
theorem metrics_inv_final (ps : List Process) (hv : ValidInput ps) :
    ∀ q ∈ view (finalState ps),
      q.remaining ≤ q.burst ∧
      (q.remaining < q.burst →
        q.arrival + (q.burst - q.remaining) ≤ (finalState ps).currentTime) ∧
      (q.remaining = 0 →
        q.arrival + q.burst ≤ q.completionTime ∧
        q.turnaroundTime = (q.completionTime : Int) - q.arrival ∧
        q.waitingTime = ((q.completionTime : Int) - q.arrival) - q.burst) := by
  unfold finalState
  have hstep : ∀ s, simGuard s = true →
      (∀ q ∈ view s,
        q.remaining ≤ q.burst ∧
        (q.remaining < q.burst →
          q.arrival + (q.burst - q.remaining) ≤ s.currentTime) ∧
        (q.remaining = 0 →
          q.arrival + q.burst ≤ q.completionTime ∧
          q.turnaroundTime = (q.completionTime : Int) - q.arrival ∧
          q.waitingTime = ((q.completionTime : Int) - q.arrival) - q.burst)) →
      (∀ q ∈ view (step s),
        q.remaining ≤ q.burst ∧
        (q.remaining < q.burst →
          q.arrival + (q.burst - q.remaining) ≤ (step s).currentTime) ∧
        (q.remaining = 0 →
          q.arrival + q.burst ≤ q.completionTime ∧
          q.turnaroundTime = (q.completionTime : Int) - q.arrival ∧
          q.waitingTime = ((q.completionTime : Int) - q.arrival) - q.burst)) := by
    intro s _ hI q hq
    cases hsel : select (view s) s.currentTime with
    | none =>
      obtain ⟨hv', ht, _, _, _⟩ := step_idle_fields hsel
      rw [hv'] at hq
      obtain ⟨c1, c2, c3⟩ := hI q hq
      rw [ht]
      exact ⟨c1, fun hlt => by have := c2 hlt; omega, c3⟩
    | some ip =>
      obtain ⟨i, p⟩ := ip
      obtain ⟨p₁, _, _, ha1, hb1, _, hr1, _, _, _, hveq, ht, _, _, _⟩ :=
        step_busy hsel
      obtain ⟨hget, harr, hrem⟩ := readyPairs_mem (select_some_mem hsel)
      rw [hveq] at hq
      rw [ht]
      rcases mem_set_cases _ _ _ _ hq with hold | hnew
      · obtain ⟨c1, c2, c3⟩ := hI q hold
        exact ⟨c1, fun hlt => by have := c2 hlt; omega, c3⟩
      · subst hnew
        obtain ⟨hb, hstart, _⟩ := hI p (mem_of_get? hget)
        refine ⟨?_, ?_, ?_⟩
        · rw [tickResult_remaining, tickResult_burst, hr1, hb1]
          omega
        · intro hlt
          rw [tickResult_remaining, tickResult_burst, tickResult_arrival,
            hr1, hb1, ha1]
          by_cases hrb : p.remaining < p.burst
          · have h2 := hstart hrb
            omega
          · omega
        · intro h0
          rw [tickResult_remaining, hr1] at h0
          have hz : p₁.remaining - 1 = 0 := by rw [hr1]; exact h0
          obtain ⟨hcomp, htat, hwt⟩ := tickResult_zero_fields s.currentTime p₁ hz
          refine ⟨?_, ?_, ?_⟩
          · rw [tickResult_arrival, tickResult_burst, hcomp, ha1, hb1]
            by_cases hrb : p.remaining < p.burst
            · have h2 := hstart hrb
              omega
            · omega
          · rw [htat, hcomp, tickResult_arrival]
            omega
          · rw [hwt, hcomp, tickResult_arrival, tickResult_burst]
            omega
  have hinit : ∀ q ∈ view (initState ps),
      q.remaining ≤ q.burst ∧
      (q.remaining < q.burst →
        q.arrival + (q.burst - q.remaining) ≤ (initState ps).currentTime) ∧
      (q.remaining = 0 →
        q.arrival + q.burst ≤ q.completionTime ∧
        q.turnaroundTime = (q.completionTime : Int) - q.arrival ∧
        q.waitingTime = ((q.completionTime : Int) - q.arrival) - q.burst) := by
    intro q hq
    rw [view_initState] at hq
    obtain ⟨hb, _, hr⟩ := hv q hq
    refine ⟨by omega, fun hlt => by omega, fun h0 => by exfalso; omega⟩
  exact simLoop_inv hstep (simFuel ps) (initState ps) hinit

/-! ### Label alternation of the timeline -/

/-- When no process is labelled with the sentinel string "IDLE", no two
consecutive timeline segments carry the same label: a pushed segment's
label always differs from the open segment's label, and extensions do not
create new segments. -/
theorem labels_final (ps : List Process) (hpid : ∀ q ∈ ps, q.pid ≠ "IDLE") :
    List.Chain' (fun a b => a.pid ≠ b.pid) (finalState ps).gantt := by
  have hmain : GanttInv (finalState ps) ∧
      (∀ q ∈ view (finalState ps), q.pid ≠ "IDLE") ∧
      ((finalState ps).isIdle = false →
        ∀ seg, (finalState ps).gantt.getLast? = some seg → seg.pid ≠ "IDLE") ∧
      List.Chain' (fun a b => a.pid ≠ b.pid) (finalState ps).gantt := by
    unfold finalState
    have hstep : ∀ s, simGuard s = true →
        (GanttInv s ∧ (∀ q ∈ view s, q.pid ≠ "IDLE") ∧
          (s.isIdle = false →
            ∀ seg, s.gantt.getLast? = some seg → seg.pid ≠ "IDLE") ∧
          List.Chain' (fun a b => a.pid ≠ b.pid) s.gantt) →
        (GanttInv (step s) ∧ (∀ q ∈ view (step s), q.pid ≠ "IDLE") ∧
          ((step s).isIdle = false →
            ∀ seg, (step s).gantt.getLast? = some seg → seg.pid ≠ "IDLE") ∧
          List.Chain' (fun a b => a.pid ≠ b.pid) (step s).gantt) := by
      intro s _ hI
      obtain ⟨hG, hpidv, hA, hB⟩ := hI
      have hpidv' : ∀ q ∈ view (step s), q.pid ≠ "IDLE" := by
        cases hsel : select (view s) s.currentTime with
        | none => rw [(step_idle_fields hsel).1]; exact hpidv
        | some ip =>
          obtain ⟨i, p⟩ := ip
          obtain ⟨hget, _, _⟩ := readyPairs_mem (select_some_mem hsel)
          obtain ⟨p₁, _, hpid1, _, _, _, _, _, _, _, hveq, _, _, _, _⟩ :=
            step_busy hsel
          rw [hveq]
          intro q hq
          rcases mem_set_cases _ _ _ _ hq with hold | hnew
          · exact hpidv q hold
          · rw [hnew, tickResult_pid, hpid1]
            exact hpidv p (mem_of_get? hget)
      have hAB : ((step s).isIdle = false →
          ∀ seg, (step s).gantt.getLast? = some seg → seg.pid ≠ "IDLE") ∧
          List.Chain' (fun a b => a.pid ≠ b.pid) (step s).gantt := by
        cases hsel : select (view s) s.currentTime with
        | none =>
          rw [step_none hsel]
          constructor
          · intro hfalse
            have hff : (true : Bool) = false := hfalse
            cases hff
          · show List.Chain' _
              (if s.isIdle = false then s.gantt ++ _ else extendLast s.gantt _)
            by_cases hid : s.isIdle = false
            · rw [if_pos hid]
              apply List.Chain'.append hB (List.chain'_singleton _)
              intro x hx y hy
              have hy' : (⟨"IDLE", s.currentTime, s.currentTime + 1, none⟩ :
                  GanttSegment) = y := by
                simpa using hy
              rw [← hy']
              exact hA hid x (by simpa using hx)
            · rw [if_neg hid]
              rcases hG with ⟨hg, ht, hla, hif⟩ |
                ⟨g', seg, hdec, _, _, _, _, _, _⟩
              · rw [hif] at hid; cases hid rfl
              · rw [hdec, extendLast_snoc]
                rw [hdec, List.chain'_append] at hB
                obtain ⟨hB1, _, hB3⟩ := hB
                rw [List.chain'_append]
                refine ⟨hB1, List.chain'_singleton _, ?_⟩
                intro x hx y hy
                have hy' : { seg with endTime := s.currentTime + 1 } = y := by
                  simpa using hy
                rw [← hy']
                show x.pid ≠ seg.pid
                exact hB3 x hx seg (by simp)
        | some ip =>
          obtain ⟨i, p⟩ := ip
          obtain ⟨hget, _, _⟩ := readyPairs_mem (select_some_mem hsel)
          have hpp : p.pid ≠ "IDLE" := hpidv p (mem_of_get? hget)
          rw [step_some hsel]
          by_cases hl : s.lastProcessId = some p.pid
          · rw [if_pos hl]
            rcases hG with ⟨hg, ht, hla, hif⟩ |
              ⟨g', seg, hdec, _, _, _, _, hlastq, _⟩
            · rw [hla] at hl; cases hl
            · have hgantt : (runTick s i p
                  (extendLast s.gantt (s.currentTime + 1)) s.isIdle).gantt =
                  g' ++ [{ seg with endTime := s.currentTime + 1 }] := by
                show extendLast s.gantt _ = _
                rw [hdec, extendLast_snoc]
              constructor
              · intro _ seg₂ hseg₂
                rw [hgantt, List.getLast?_concat] at hseg₂
                injection hseg₂ with hseg₂
                rw [← hseg₂]
                show seg.pid ≠ "IDLE"
                rw [hlastq p.pid hl]
                exact hpp
              · rw [hgantt]
                rw [hdec, List.chain'_append] at hB
                obtain ⟨hB1, _, hB3⟩ := hB
                rw [List.chain'_append]
                refine ⟨hB1, List.chain'_singleton _, ?_⟩
                intro x hx y hy
                have hy' : { seg with endTime := s.currentTime + 1 } = y := by
                  simpa using hy
                rw [← hy']
                show x.pid ≠ seg.pid
                exact hB3 x hx seg (by simp)
          · rw [if_neg hl]
            have hgantt : (runTick s i
                (if p.startTimes = [] then
                  { p with startTimes := [s.currentTime] } else p)
                (s.gantt ++ [(⟨p.pid, s.currentTime, s.currentTime + 1,
                  some p.id⟩ : GanttSegment)]) false).gantt =
                s.gantt ++ [(⟨p.pid, s.currentTime, s.currentTime + 1,
                  some p.id⟩ : GanttSegment)] := rfl
            rw [hgantt]
            constructor
            · intro _ seg₂ hseg₂
              rw [List.getLast?_concat] at hseg₂
              injection hseg₂ with hseg₂
              rw [← hseg₂]
              exact hpp
            · apply List.Chain'.append hB (List.chain'_singleton _)
              intro x hx y hy
              have hy' : (⟨p.pid, s.currentTime, s.currentTime + 1,
                  some p.id⟩ : GanttSegment) = y := by
                simpa using hy
              rw [← hy']
              show x.pid ≠ p.pid
              rcases hG with ⟨hg, _, _, _⟩ |
                ⟨g', seg, hdec, _, _, _, _, hlastq, hnone⟩
              · rw [hg] at hx; simp at hx
              · rw [hdec, List.getLast?_concat] at hx
                have hx' : seg = x := by simpa using hx
                rw [← hx']
                cases hlp : s.lastProcessId with
                | none =>
                  rw [hnone hlp]
                  exact Ne.symm hpp
                | some q =>
                  rw [hlastq q hlp]
                  intro hc
                  rw [hlp, hc] at hl
                  exact hl rfl
      exact ⟨ganttInv_step s hG, hpidv', hAB.1, hAB.2⟩
    have hinit : GanttInv (initState ps) ∧
        (∀ q ∈ view (initState ps), q.pid ≠ "IDLE") ∧
        ((initState ps).isIdle = false →
          ∀ seg, (initState ps).gantt.getLast? = some seg →
            seg.pid ≠ "IDLE") ∧
        List.Chain' (fun a b => a.pid ≠ b.pid) (initState ps).gantt := by
      refine ⟨ganttInv_init ps, ?_, ?_, List.chain'_nil⟩
      · rw [view_initState]; exact hpid
      · intro _ seg hseg
        cases hseg
    exact simLoop_inv hstep (simFuel ps) (initState ps) hinit
  exact hmain.2.2.2

/-! ### Frame lemmas: the store below `base` and the identity fields -/

theorem get?_some_lt {α : Type} {l : List α} {k : Nat} {a : α}
    (h : l.get? k = some a) : k < l.length := by
  by_contra hc
  rw [List.get?_eq_none.2 (Nat.le_of_not_lt hc)] at h
  cases h

/-- Every iteration leaves `base` unchanged and writes the store, if at
all, only at an address at or above `base`. -/
theorem step_store (s : SimState) :
    (step s).base = s.base ∧
    ((step s).heap = s.heap ∨
      ∃ j q, s.base ≤ j ∧ (step s).heap = s.heap.set j q) := by
  cases hsel : select (view s) s.currentTime with
  | none =>
    rw [step_none hsel]
    exact ⟨rfl, Or.inl rfl⟩
  | some ip =>
    obtain ⟨i, p⟩ := ip
    rw [step_some hsel]
    by_cases hl : s.lastProcessId = some p.pid
    · rw [if_pos hl]
      exact ⟨rfl, Or.inr ⟨s.base + i, _, Nat.le_add_right _ _, rfl⟩⟩
    · rw [if_neg hl]
      exact ⟨rfl, Or.inr ⟨s.base + i, _, Nat.le_add_right _ _, rfl⟩⟩

theorem store_frame (ps : List Process) :
    (finalState ps).base = ps.length ∧
    ps.length ≤ (finalState ps).heap.length ∧
    ∀ k, k < ps.length → (finalState ps).heap.get? k = ps.get? k := by
  unfold finalState
  have hstep : ∀ s, simGuard s = true →
      (s.base = ps.length ∧ ps.length ≤ s.heap.length ∧
        ∀ k, k < ps.length → s.heap.get? k = ps.get? k) →
      ((step s).base = ps.length ∧ ps.length ≤ (step s).heap.length ∧
        ∀ k, k < ps.length → (step s).heap.get? k = ps.get? k) := by
    intro s _ hI
    obtain ⟨hb, hlen, hget⟩ := hI
    obtain ⟨hb', hheap⟩ := step_store s
    rcases hheap with hh | ⟨j, q, hj, hh⟩
    · rw [hb', hh]
      exact ⟨hb, hlen, hget⟩
    · refine ⟨by rw [hb']; exact hb, ?_, ?_⟩
      · rw [hh, List.length_set]
        exact hlen
      · intro k hk
        rw [hh, List.get?_set_ne _ _ (by omega)]
        exact hget k hk
  have hinit : (initState ps).base = ps.length ∧
      ps.length ≤ (initState ps).heap.length ∧
      ∀ k, k < ps.length → (initState ps).heap.get? k = ps.get? k := by
    refine ⟨rfl, ?_, ?_⟩
    · show ps.length ≤ (ps ++ ps.map cloneProcess).length
      rw [List.length_append]
      omega
    · intro k hk
      show (ps ++ ps.map cloneProcess).get? k = ps.get? k
      exact List.get?_append hk
  exact simLoop_inv hstep (simFuel ps) (initState ps) hinit

theorem fields_frame (ps : List Process) :
    (view (finalState ps)).length = ps.length ∧
    ∀ k pi po, ps.get? k = some pi →
      (view (finalState ps)).get? k = some po →
      po.id = pi.id ∧ po.pid = pi.pid ∧ po.arrival = pi.arrival ∧
      po.burst = pi.burst ∧ po.priority = pi.priority := by
  unfold finalState
  have hstep : ∀ s, simGuard s = true →
      ((view s).length = ps.length ∧
        ∀ k pi po, ps.get? k = some pi → (view s).get? k = some po →
          po.id = pi.id ∧ po.pid = pi.pid ∧ po.arrival = pi.arrival ∧
          po.burst = pi.burst ∧ po.priority = pi.priority) →
      ((view (step s)).length = ps.length ∧
        ∀ k pi po, ps.get? k = some pi → (view (step s)).get? k = some po →
          po.id = pi.id ∧ po.pid = pi.pid ∧ po.arrival = pi.arrival ∧
          po.burst = pi.burst ∧ po.priority = pi.priority) := by
    intro s _ hI
    obtain ⟨hlen, hfields⟩ := hI
    cases hsel : select (view s) s.currentTime with
    | none =>
      rw [(step_idle_fields hsel).1]
      exact ⟨hlen, hfields⟩
    | some ip =>
      obtain ⟨i, p⟩ := ip
      obtain ⟨hget, _, _⟩ := readyPairs_mem (select_some_mem hsel)
      obtain ⟨p₁, hid1, hpid1, ha1, hb1, hp1, _, _, _, _, hveq, _, _, _, _⟩ :=
        step_busy hsel
      rw [hveq]
      refine ⟨by rw [List.length_set]; exact hlen, ?_⟩
      intro k pi po hgetps hgetv
      by_cases hk : k = i
      · subst hk
        rw [set_get?_self _ _ _ (get?_some_lt hget)] at hgetv
        injection hgetv with hpo
        obtain ⟨h5a, h5b, h5c, h5d, h5e⟩ := hfields k pi p hgetps hget
        rw [← hpo, tickResult_id, tickResult_pid, tickResult_arrival,
          tickResult_burst, tickResult_priority, hid1, hpid1, ha1, hb1, hp1]
        exact ⟨h5a, h5b, h5c, h5d, h5e⟩
      · rw [List.get?_set_ne _ _ (fun hc => hk hc.symm)] at hgetv
        exact hfields k pi po hgetps hgetv
  have hinit : (view (initState ps)).length = ps.length ∧
      ∀ k pi po, ps.get? k = some pi →
        (view (initState ps)).get? k = some po →
        po.id = pi.id ∧ po.pid = pi.pid ∧ po.arrival = pi.arrival ∧
        po.burst = pi.burst ∧ po.priority = pi.priority := by
    rw [view_initState]
    refine ⟨rfl, ?_⟩
    intro k pi po h1 h2
    rw [h1] at h2
    injection h2 with h2
    rw [h2]
    exact ⟨rfl, rfl, rfl, rfl, rfl⟩
  exact simLoop_inv hstep (simFuel ps) (initState ps) hinit

/-- C1 (counterexample to the claim as stated): on Scenario B the timeline
is not `[P1: 0-1, P2: 1-5, P1: 5-13]` — P1 has 7 remaining ticks after
tick 0 and resumes at tick 5, so its final segment ends at `5 + 7 = 12`,
not 13. -/
theorem claim1_counterexample :
    (runPrioritySimulation scenarioB).gantt ≠
      [{ pid := "P1", start := 0, endTime := 1, id := some 1 },
       { pid := "P2", start := 1, endTime := 5, id := some 2 },
       { pid := "P1", start := 5, endTime := 13, id := some 1 }] := by
  decide

/-- C1 (amended): for Scenario B the simulation runs P1 at tick 0 (the
only ready process), P2 preempts from tick 1 and runs ticks 1-4 with
`completionTime = 5`, and P1 resumes at tick 5 and runs to completion at
tick 12 (its 7 remaining ticks after tick 0 occupy ticks 5-11), with
timeline segments at exactly these boundaries. -/
theorem claim1_scenarioB :
    runPrioritySimulation scenarioB =
      { processes :=
          [{ id := 1, pid := "P1", arrival := 0, burst := 8, priority := 2,
             remaining := 0, completionTime := 12, turnaroundTime := 12,
             waitingTime := 4, startTimes := [0] },
           { id := 2, pid := "P2", arrival := 1, burst := 4, priority := 1,
             remaining := 0, completionTime := 5, turnaroundTime := 4,
             waitingTime := 0, startTimes := [1] }],
        gantt :=
          [{ pid := "P1", start := 0, endTime := 1, id := some 1 },
           { pid := "P2", start := 1, endTime := 5, id := some 2 },
           { pid := "P1", start := 5, endTime := 12, id := some 1 }],
        totalTime := 12,
        idleTime := 0 } := by
  decide

/-- C2 (counterexample to the claim as stated): Scenario C is a valid
input (burst 2 ≥ 1, priority 1 ≥ 1, arrival 3 ≥ 0) whose run has three
leading idle ticks, so `totalTime = 5` exceeds the sum of bursts, 2. -/
theorem claim2_counterexample :
    ValidInput scenarioC ∧
      ¬ ((runPrioritySimulation scenarioC).totalTime ≤ sumBurst scenarioC) := by
  decide

/-- C2 (amended): for every valid input, the `totalTime` returned by the
simulation is bounded by the sum of all processes' bursts plus the largest
arrival time among them (idle ticks occur only before the last arrival). -/
theorem claim2_totalTime_bound (ps : List Process) (hv : ValidInput ps) :
    (runPrioritySimulation ps).totalTime ≤ sumBurst ps + maxArrival ps := by
  rw [totalTime_spec ps hv]
  obtain ⟨h1, h2, h3⟩ := idle_bound ps
  have hid : (runPrioritySimulation ps).idleTime = (finalState ps).idleTime := rfl
  rw [hid]
  omega

/-- Witness for C2 (amended) at Scenario A. -/
theorem claim2_witness :
    (runPrioritySimulation scenarioA).totalTime ≤
      sumBurst scenarioA + maxArrival scenarioA :=
  claim2_totalTime_bound scenarioA (by decide)

/-- C4: for every valid input, the sum of all processes' burst values plus
the returned `idleTicks` counter equals the returned `totalTime`. -/
theorem claim4_conservation (ps : List Process) (hv : ValidInput ps) :
    sumBurst ps + (runPrioritySimulation ps).idleTime =
      (runPrioritySimulation ps).totalTime :=
  (totalTime_spec ps hv).symm

/-- Witness for C4 at Scenario C (2 burst ticks + 3 idle ticks = 5). -/
theorem claim4_witness :
    sumBurst scenarioC + (runPrioritySimulation scenarioC).idleTime =
      (runPrioritySimulation scenarioC).totalTime :=
  claim4_conservation scenarioC (by decide)

/-- C7: for every process of a valid input, the final record satisfies
`completionTime ≥ arrival + burst`, with equality exactly when
`waitingTime = 0`. -/
theorem claim7_completion (ps : List Process) (hv : ValidInput ps) :
    ∀ q ∈ (runPrioritySimulation ps).processes,
      q.arrival + q.burst ≤ q.completionTime ∧
      (q.completionTime = q.arrival + q.burst ↔ q.waitingTime = 0) := by
  intro q hq
  have hq' : q ∈ view (finalState ps) := hq
  have hz := finalState_done q hq'
  obtain ⟨_, _, c3⟩ := metrics_inv_final ps hv q hq'
  obtain ⟨hle, _, hwt⟩ := c3 hz
  refine ⟨hle, ?_, ?_⟩
  · intro he
    rw [hwt]
    omega
  · intro hw
    rw [hwt] at hw
    omega

/-- Witness for C7: the single process of Scenario A completes at tick 5
with `completionTime = arrival + burst` and zero waiting time. -/
theorem claim7_witness :
    (⟨1, "P1", 0, 5, 1, 0, 5, 5, 0, [0]⟩ : Process).arrival +
        (⟨1, "P1", 0, 5, 1, 0, 5, 5, 0, [0]⟩ : Process).burst ≤
      (⟨1, "P1", 0, 5, 1, 0, 5, 5, 0, [0]⟩ : Process).completionTime ∧
    ((⟨1, "P1", 0, 5, 1, 0, 5, 5, 0, [0]⟩ : Process).completionTime =
        (⟨1, "P1", 0, 5, 1, 0, 5, 5, 0, [0]⟩ : Process).arrival +
          (⟨1, "P1", 0, 5, 1, 0, 5, 5, 0, [0]⟩ : Process).burst ↔
      (⟨1, "P1", 0, 5, 1, 0, 5, 5, 0, [0]⟩ : Process).waitingTime = 0) :=
  claim7_completion scenarioA (by decide) _ (by decide)

/-- C5: whenever the selector picks a process at a tick (which the loop
body does at every tick with a nonempty ready set, by definition of
`step`), that process runs (the loop records its pid), and no member of
the ready set has a strictly smaller priority value.  Since selection is
recomputed from scratch every tick, a higher-priority arrival preempts at
the very next tick boundary: there is no minimum quantum. -/
theorem claim5_priority_minimal (s : SimState) (i : Nat) (p : Process)
    (hsel : select (view s) s.currentTime = some (i, p)) :
    (step s).lastProcessId = some p.pid ∧
    ∀ jq ∈ readyPairs (view s) s.currentTime, ¬ jq.2.priority < p.priority := by
  constructor
  · obtain ⟨p₁, _, _, _, _, _, _, _, _, _, _, _, _, _, hlast⟩ := step_busy hsel
    exact hlast
  · intro jq hjq
    exact not_priority_lt_of_cmpLt_false (select_min hsel jq hjq)

/-- Witness for C5 on `tieInput` at tick 0: P2 (priority 1) is selected
and P1 (priority 2) in the ready set is not below it. -/
theorem claim5_witness :
    (step (initState tieInput)).lastProcessId = some "P2" ∧
      ¬ (⟨1, "P1", 0, 2, 2, 2, 0, 0, 0, []⟩ : Process).priority <
          (⟨2, "P2", 0, 2, 1, 2, 0, 0, 0, []⟩ : Process).priority := by
  have h := claim5_priority_minimal (initState tieInput) 1
    ⟨2, "P2", 0, 2, 1, 2, 0, 0, 0, []⟩ (by decide)
  exact ⟨h.1, h.2 (0, ⟨1, "P1", 0, 2, 2, 2, 0, 0, 0, []⟩) (by decide)⟩

/-- C6: the selector never picks a process when an earlier process of the
input order is ready with equal priority and equal arrival — ties are
broken by input relative order (the head of JavaScript's stable sort).
The engine is a pure function of its input, so the outcome is identical
on every run. -/
theorem claim6_tie_order (ps : List Process) (t : Nat) (i j : Nat)
    (pi pj : Process) (hsel : select ps t = some (j, pj)) (hij : i < j)
    (hget : ps.get? i = some pi) :
    ¬ (pi.arrival ≤ t ∧ 0 < pi.remaining ∧ pi.priority = pj.priority ∧
        pi.arrival = pj.arrival) := by
  rintro ⟨harr, hrem, hpri, harri⟩
  have hmem : (i, pi) ∈ readyPairs ps t := readyPairs_of_get? hget harr hrem
  obtain ⟨l₁, l₂, hdec, hall⟩ := select_first hsel
  have hpw := readyPairs_pairwise ps t
  rw [hdec] at hmem hpw
  rcases List.mem_append.1 hmem with hm | hm
  · have hbeat : cmpLt pj pi = true := hall (i, pi) hm
    have hfalse : cmpLt pj pi = false := cmpLt_of_eq_keys hpri.symm harri.symm
    rw [hbeat] at hfalse
    cases hfalse
  · rcases List.mem_cons.1 hm with hm' | hm'
    · injection hm' with h1 h2
      omega
    · rw [List.pairwise_append] at hpw
      obtain ⟨_, hpw2, _⟩ := hpw
      have hj : j < i := (List.pairwise_cons.1 hpw2).1 (i, pi) hm'
      omega

/-- Witness for C6 on `tieInput` at tick 0, where P2 at index 1 is
selected over P1 at index 0: they do not tie. -/
theorem claim6_witness :
    ¬ ((⟨1, "P1", 0, 2, 2, 2, 0, 0, 0, []⟩ : Process).arrival ≤ 0 ∧
        0 < (⟨1, "P1", 0, 2, 2, 2, 0, 0, 0, []⟩ : Process).remaining ∧
        (⟨1, "P1", 0, 2, 2, 2, 0, 0, 0, []⟩ : Process).priority =
          (⟨2, "P2", 0, 2, 1, 2, 0, 0, 0, []⟩ : Process).priority ∧
        (⟨1, "P1", 0, 2, 2, 2, 0, 0, 0, []⟩ : Process).arrival =
          (⟨2, "P2", 0, 2, 1, 2, 0, 0, 0, []⟩ : Process).arrival) :=
  claim6_tie_order tieInput 0 0 1 _ _ (by decide) (by decide) (by decide)

/-- C8: the CPU-utilization computation of `handleSubmit` (source line
241) equals `(totalTime - idleTicks) / totalTime * 100` whenever
`totalTime` is positive and `0` when `totalTime = 0`; the empty input
yields `totalTime = 0`, an empty timeline and utilization `0`, with the
division never executed. -/
theorem claim8_cpuUtil :
    (runPrioritySimulation []).totalTime = 0 ∧
    (runPrioritySimulation []).gantt = [] ∧
    cpuUtil (runPrioritySimulation []).totalTime
      (runPrioritySimulation []).idleTime = 0 ∧
    (∀ T k : Nat, 0 < T → cpuUtil T k = ((T : ℚ) - (k : ℚ)) / (T : ℚ) * 100) ∧
    (∀ k : Nat, cpuUtil 0 k = 0) := by
  refine ⟨rfl, rfl, ?_, ?_, ?_⟩
  · rfl
  · intro T k hT
    unfold cpuUtil
    rw [if_pos hT]
  · intro k
    rfl

/-- Witness for C8 at `totalTime = 5`, `idleTicks = 3`. -/
theorem claim8_witness :
    cpuUtil 5 3 = (((5 : Nat) : ℚ) - ((3 : Nat) : ℚ)) / ((5 : Nat) : ℚ) * 100 :=
  claim8_cpuUtil.2.2.2.1 5 3 (by decide)

/-- C3 (counterexample to the claim as stated): `idleNamedInput` is valid
by the claim's arithmetic conditions, yet its single process is labelled
with the sentinel string "IDLE", so the run produces the idle segment
`[0,1)` and the process segment `[1,2)` as two consecutive segments with
the same label "IDLE". -/
theorem claim3_counterexample :
    ValidInput idleNamedInput ∧
    (runPrioritySimulation idleNamedInput).gantt =
      [⟨"IDLE", 0, 1, none⟩, ⟨"IDLE", 1, 2, some 1⟩] ∧
    ¬ List.Chain' (fun a b => a.pid ≠ b.pid)
        (runPrioritySimulation idleNamedInput).gantt := by
  refine ⟨by decide, by decide, ?_⟩
  intro hC
  have hg : (runPrioritySimulation idleNamedInput).gantt =
      [⟨"IDLE", 0, 1, none⟩, ⟨"IDLE", 1, 2, some 1⟩] := by decide
  rw [hg] at hC
  exact (List.chain'_cons.1 hC).1 rfl

/-- C3 (amended): for every valid input in which no process carries the
sentinel label "IDLE", the returned timeline chains from 0 to `totalTime`
(segments contiguous, non-overlapping, each with `start < end`),
consecutive segments never share a label, and the segments' half-open
ranges cover exactly `[0, totalTime)`. -/
theorem claim3_timeline (ps : List Process) (hv : ValidInput ps)
    (hpid : ∀ q ∈ ps, q.pid ≠ "IDLE") :
    chainTo 0 (runPrioritySimulation ps).gantt
        (runPrioritySimulation ps).totalTime ∧
    List.Chain' (fun a b => a.pid ≠ b.pid) (runPrioritySimulation ps).gantt ∧
    ∀ x, (∃ seg ∈ (runPrioritySimulation ps).gantt,
        seg.start ≤ x ∧ x < seg.endTime) ↔
      x < (runPrioritySimulation ps).totalTime := by
  have hchain : chainTo 0 (finalState ps).gantt (lastEnd (finalState ps).gantt) :=
    chainTo_lastEnd (ganttInv_final ps)
  refine ⟨hchain, labels_final ps hpid, ?_⟩
  intro x
  have hcov := chainTo_cover (finalState ps).gantt 0 hchain x
  exact ⟨fun hx => (hcov.1 hx).2, fun hx => hcov.2 ⟨Nat.zero_le x, hx⟩⟩

/-- Witness for C3 (amended) at Scenario A. -/
theorem claim3_witness :
    chainTo 0 (runPrioritySimulation scenarioA).gantt
      (runPrioritySimulation scenarioA).totalTime :=
  (claim3_timeline scenarioA (by decide) (by decide)).1

/-- C9: the simulation never mutates its caller's records.  `finalState ps`
is the machine state at the moment `runPrioritySimulation ps` returns,
with the caller's records at store addresses `[0, ps.length)` and the
engine's private deep copies (source line 36) above them; every loop write
hits an address at or above `base = ps.length`, so the caller's prefix of
the store is returned intact, every field of every record unchanged. -/
theorem claim9_no_mutation (ps : List Process) :
    (finalState ps).heap.take ps.length = ps := by
  obtain ⟨hb, hlen, hget⟩ := store_frame ps
  apply List.ext
  intro n
  by_cases hn : n < ps.length
  · rw [List.get?_take hn, hget n hn]
  · have h1 : ((finalState ps).heap.take ps.length).get? n = none := by
      rw [List.get?_eq_none]
      rw [List.length_take]
      omega
    have h2 : ps.get? n = none := by
      rw [List.get?_eq_none]
      omega
    rw [h1, h2]

/-- C10: the processes list returned by the simulation has the same length
and order as the input, and every record keeps the input's `id`, `pid`,
`arrival`, `burst` and `priority`; only `remaining`, `completionTime`,
`turnaroundTime`, `waitingTime` and `startTimes` are recomputed. -/
theorem claim10_identity_fields (ps : List Process) (hv : ValidInput ps) :
    (runPrioritySimulation ps).processes.length = ps.length ∧
    ∀ k pi po, ps.get? k = some pi →
      (runPrioritySimulation ps).processes.get? k = some po →
      po.id = pi.id ∧ po.pid = pi.pid ∧ po.arrival = pi.arrival ∧
      po.burst = pi.burst ∧ po.priority = pi.priority :=
  fields_frame ps

/-- Witness for C10 at Scenario A. -/
theorem claim10_witness :
    (runPrioritySimulation scenarioA).processes.length = scenarioA.length :=
  (claim10_identity_fields scenarioA (by decide)).1

end PriorityScheduler
